import Mathlib

/-!
# Verification of the dependency-ordered relational schema/data migrator

Shallow embedding of the core of `migrate/migrate.go`:

* `ForeignKeyInfo`, `buildDeps`, `visitNode` / `visitDeps` / `sortLoop` /
  `sortTablesByDependencies` model the dependency-map construction and the
  depth-first topological sort of `SortTablesByDependencies`.
* `Value`, `sanitizeValue`, `sanitizeRow` model the per-value zero-date
  sanitization of `MigrateTableData`.
* `insertRows`, `migrateDataLoop`, `MigrateTableData`, `MigrateTable`,
  `migrateTablesLoop`, `Migrate` model the batched data mover and the run
  orchestrator, with database answers supplied by an `Env` record and all
  destination-visible effects (and log lines) collected in a trace of `Op`s.

Go maps with boolean values (`visited`, `temp`) are modelled as lists with
decidable membership; the unbounded `for`/recursion of the Go code is modelled
with an explicit fuel parameter, together with lemmas showing the chosen fuel
is always sufficient (for the sorter) or characterizing termination (for the
paging loop, which genuinely may not terminate when `BatchSize ≤ 0`).
-/

/-- `ForeignKeyInfo` from migrate.go: a foreign key constraint. -/
structure ForeignKeyInfo where
  TableName : String
  ColumnName : String
  ReferencedTable : String
  ReferencedColumn : String
deriving DecidableEq, Repr

/-- The dependency list built for one table by `SortTablesByDependencies`
(lines 271–287 of migrate.go): for each foreign key of `tableName`,
self-referencing keys are skipped, and the referenced table is retained only
when it occurs in the input table list. -/
def buildDeps (fks : String → List ForeignKeyInfo) (tables : List String)
    (tableName : String) : List String :=
  (fks tableName).filterMap fun fk =>
    if fk.ReferencedTable = tableName then none
    else if fk.ReferencedTable ∈ tables then some fk.ReferencedTable
    else none

/-- The retained dependency edge relation: `DepEdge fks tables a b` holds when
table `a` depends on table `b` in the constructed dependency map. -/
def DepEdge (fks : String → List ForeignKeyInfo) (tables : List String)
    (a b : String) : Prop :=
  b ∈ buildDeps fks tables a

/-- The mutable state of the topological sort: `result`, and the Go maps
`visited` and `temp` represented as lists of the tables marked `true`. -/
structure SortState where
  result : List String
  visited : List String
  temp : List String
deriving DecidableEq, Repr

/-- Errors of the sort: a detected cycle naming the implicated table, or
exhaustion of the embedding's fuel (proved unreachable for the fuel used by
`sortTablesByDependencies`). -/
inductive SortErr where
  | cycle (tableName : String)
  | fuelOut
deriving DecidableEq, Repr

/-- The `for _, dep := range dependencies[tableName]` loop inside `visit`:
visit each dependency in order with the given visitor, aborting on the first
error. -/
def visitDeps (visit : String → SortState → Except SortErr SortState) :
    List String → SortState → Except SortErr SortState
  | [], s => .ok s
  | d :: ds, s =>
    match visit d s with
    | .error e => .error e
    | .ok s1 => visitDeps visit ds s1

/-- The recursive `visit` closure of `SortTablesByDependencies`
(lines 294–315): an in-progress (`temp`) node signals a cycle, a `visited`
node is skipped, otherwise the node is marked in-progress, its dependencies
are visited, and the node is appended to `result` and marked visited. -/
def visitNode (deps : String → List String) :
    Nat → String → SortState → Except SortErr SortState
  | 0, _, _ => .error .fuelOut
  | fuel + 1, t, s =>
    if t ∈ s.temp then .error (.cycle t)
    else if t ∈ s.visited then .ok s
    else
      match visitDeps (visitNode deps fuel) (deps t)
          { s with temp := t :: s.temp } with
      | .error e => .error e
      | .ok s1 =>
          .ok { result := s1.result ++ [t], visited := t :: s1.visited,
                temp := s1.temp.erase t }

/-- The top-level loop of `SortTablesByDependencies` (lines 317–323): visit
every not-yet-visited table in input order. -/
def sortLoop (deps : String → List String) (fuel : Nat) :
    List String → SortState → Except SortErr SortState
  | [], s => .ok s
  | t :: ts, s =>
    if t ∈ s.visited then sortLoop deps fuel ts s
    else
      match visitNode deps fuel t s with
      | .error e => .error e
      | .ok s1 => sortLoop deps fuel ts s1

/-- `SortTablesByDependencies` (lines 258–326): build the dependency map from
the per-table foreign keys, then run the depth-first topological sort.  The
fuel `tables.length + 1` bounds the depth of the recursion; it is proved
sufficient below, so the `fuelOut` branch is unreachable. -/
def sortTablesByDependencies (fks : String → List ForeignKeyInfo)
    (tables : List String) : Except String (List String) :=
  match sortLoop (buildDeps fks tables) (tables.length + 1) tables ⟨[], [], []⟩ with
  | .ok s => .ok s.result
  | .error (.cycle t) =>
      .error ("circular dependency detected involving table " ++ t)
  | .error .fuelOut => .error "internal: fuel exhausted"

/-- A database cell value as seen by the data mover (migrate.go scans each
cell into an `interface{}`; the sanitization switch at lines 412–443 inspects
`string`, `[]byte` and `time.Time` values).  A byte slice is given by the
string its bytes spell; a `time.Time` is abstracted by the two observations
the code makes of it (`IsZero()` and `Year()`). -/
inductive Value where
  | null
  | str (s : String)
  | bytes (data : String)
  | timeVal (isZero : Bool) (year : Int)
  | intVal (n : Int)
  | other (tag : String)
deriving DecidableEq, Repr

/-- The per-value sanitization of `MigrateTableData` (lines 412–443): a
zero-date `string`/`[]byte`, or a `time.Time` with `IsZero()` or zero year,
becomes the string `"1970-01-01"` in `AspNetUsers.Birthday` and `nil` in every
other table/column; everything else (including `nil`) is left unchanged. -/
def sanitizeValue (tableName colName : String) : Value → Value
  | .str v =>
    if v = "0000-00-00" ∨ v = "0000-00-00 00:00:00" then
      if tableName = "AspNetUsers" ∧ colName = "Birthday" then .str "1970-01-01"
      else .null
    else .str v
  | .bytes v =>
    if v = "0000-00-00" ∨ v = "0000-00-00 00:00:00" then
      if tableName = "AspNetUsers" ∧ colName = "Birthday" then .str "1970-01-01"
      else .null
    else .bytes v
  | .timeVal isZ year =>
    if isZ = true ∨ year = 0 then
      if tableName = "AspNetUsers" ∧ colName = "Birthday" then .str "1970-01-01"
      else .null
    else .timeVal isZ year
  | v => v

/-- Whether a value is one of the zero-date forms recognized by the
sanitization switch (spec §4.4: textual/byte form of an all-zero date or
datetime, or a zero-valued/zero-year date value). -/
def isZeroDateValue : Value → Bool
  | .str v => v = "0000-00-00" ∨ v = "0000-00-00 00:00:00"
  | .bytes v => v = "0000-00-00" ∨ v = "0000-00-00 00:00:00"
  | .timeVal isZ year => isZ = true ∨ year = 0
  | _ => false

/-- Sanitize one row: each cell is processed with the column name of the same
ordinal position (`colName := columns[i]` at line 414). -/
def sanitizeRow (tableName : String) (columns : List String)
    (row : List Value) : List Value :=
  (columns.zip row).map fun p => sanitizeValue tableName p.1 p.2

/-! ## Invariants of the topological sort -/

/-- Invariant of a sort state: `visited` and `result` mark the same tables,
`result` is duplicate-free, and `result` is dependency-closed and
dependency-ordered (every dependency of an emitted table was emitted at a
strictly earlier index). -/
def SortInv (deps : String → List String) (s : SortState) : Prop :=
  (∀ x, x ∈ s.visited ↔ x ∈ s.result) ∧ s.result.Nodup ∧
  (∀ a ∈ s.result, ∀ d ∈ deps a,
    d ∈ s.result ∧ s.result.indexOf d < s.result.indexOf a)

/-- What one successful `visitNode`/`visitDeps` call does to the state: the
in-progress marks are restored, the result is extended, visited marks only
grow, every newly visited table is a non-in-progress member of `tables`, and
the invariant is preserved. -/
def GoodStep (deps : String → List String) (tables : List String)
    (s s' : SortState) : Prop :=
  s'.temp = s.temp ∧
  (∃ l, s'.result = s.result ++ l) ∧
  (∀ x, x ∈ s.visited → x ∈ s'.visited) ∧
  (∀ x, x ∈ s'.visited → x ∈ s.visited ∨ (x ∉ s.temp ∧ x ∈ tables)) ∧
  (SortInv deps s → SortInv deps s')

theorem GoodStep.refl {deps : String → List String} {tables : List String}
    {s : SortState} : GoodStep deps tables s s :=
  ⟨rfl, ⟨[], by simp⟩, fun _ h => h, fun _ h => Or.inl h, fun h => h⟩

theorem GoodStep.trans {deps : String → List String} {tables : List String}
    {s1 s2 s3 : SortState} (h1 : GoodStep deps tables s1 s2)
    (h2 : GoodStep deps tables s2 s3) : GoodStep deps tables s1 s3 := by
  obtain ⟨ht1, ⟨l1, hr1⟩, hv1, hn1, hi1⟩ := h1
  obtain ⟨ht2, ⟨l2, hr2⟩, hv2, hn2, hi2⟩ := h2
  refine ⟨ht2.trans ht1, ⟨l1 ++ l2, by rw [hr2, hr1, List.append_assoc]⟩,
    fun x hx => hv2 x (hv1 x hx), fun x hx => ?_, fun h => hi2 (hi1 h)⟩
  rcases hn2 x hx with hx2 | ⟨hx2, hx3⟩
  · exact hn1 x hx2
  · exact Or.inr ⟨by rwa [ht1] at hx2, hx3⟩

/-- Every retained dependency is a member of the input table list. -/
theorem buildDeps_subset (fks : String → List ForeignKeyInfo)
    (tables : List String) (t : String) :
    ∀ d ∈ buildDeps fks tables t, d ∈ tables := by
  intro d hd
  simp only [buildDeps, List.mem_filterMap] at hd
  obtain ⟨fk, _, hfk⟩ := hd
  split at hfk
  · exact absurd hfk (by simp)
  · split at hfk
    · cases hfk; assumption
    · exact absurd hfk (by simp)

/-- A duplicate-free list included in another list is no longer than it. -/
theorem nodup_subset_length_le {l l' : List String} (h1 : l.Nodup)
    (h2 : ∀ x ∈ l, x ∈ l') : l.length ≤ l'.length := by
  calc l.length = l.toFinset.card := (List.toFinset_card_of_nodup h1).symm
    _ ≤ l'.toFinset.card := Finset.card_le_card (fun x hx => by
        simp only [List.mem_toFinset] at hx ⊢; exact h2 x hx)
    _ ≤ l'.length := l'.toFinset_card_le

/-- If every single visit at a given fuel is a good step, so is every
dependency-list visit at that fuel. -/
theorem visitDeps_good_of {deps : String → List String} {tables : List String}
    {fuel : Nat}
    (hN : ∀ t s s', t ∈ tables → visitNode deps fuel t s = .ok s' →
      GoodStep deps tables s s' ∧ t ∈ s'.visited) :
    ∀ ds s s', (∀ d ∈ ds, d ∈ tables) → visitDeps (visitNode deps fuel) ds s = .ok s' →
      GoodStep deps tables s s' ∧ ∀ d ∈ ds, d ∈ s'.visited := by
  intro ds
  induction ds with
  | nil =>
    intro s s' _ h
    simp only [visitDeps, Except.ok.injEq] at h
    subst h
    exact ⟨GoodStep.refl, by simp⟩
  | cons d ds ih =>
    intro s s' hds h
    simp only [visitDeps] at h
    cases hv : visitNode deps fuel d s with
    | error e => rw [hv] at h; exact absurd h (by simp)
    | ok s1 =>
      rw [hv] at h
      obtain ⟨g1, hd1⟩ := hN d s s1 (hds d (by simp)) hv
      obtain ⟨g2, hmem⟩ := ih s1 s' (fun x hx => hds x (by simp [hx])) h
      refine ⟨g1.trans g2, ?_⟩
      intro x hx
      rcases List.mem_cons.1 hx with rfl | hx'
      · exact g2.2.2.1 x hd1
      · exact hmem x hx'

/-- Every successful `visitNode` call on a table of the input list is a good
step that leaves the table visited. -/
theorem visitNode_good {deps : String → List String} {tables : List String}
    (hdeps : ∀ u, ∀ d ∈ deps u, d ∈ tables) :
    ∀ fuel, ∀ t s s', t ∈ tables → visitNode deps fuel t s = .ok s' →
      GoodStep deps tables s s' ∧ t ∈ s'.visited := by
  intro fuel
  induction fuel with
  | zero => intro t s s' _ h; simp [visitNode] at h
  | succ fuel ih =>
    intro t s s' ht h
    simp only [visitNode] at h
    by_cases h1 : t ∈ s.temp
    · rw [if_pos h1] at h; exact absurd h (by simp)
    · rw [if_neg h1] at h
      by_cases h2 : t ∈ s.visited
      · rw [if_pos h2] at h
        simp only [Except.ok.injEq] at h
        subst h
        exact ⟨GoodStep.refl, h2⟩
      · rw [if_neg h2] at h
        cases hvd : visitDeps (visitNode deps fuel) (deps t) { s with temp := t :: s.temp } with
        | error e => rw [hvd] at h; exact absurd h (by simp)
        | ok s1 =>
          rw [hvd] at h
          simp only [Except.ok.injEq] at h
          subst h
          obtain ⟨g, hmem⟩ := visitDeps_good_of ih (deps t) _ s1 (hdeps t) hvd
          obtain ⟨gt, ⟨l, hl⟩, gv, gn, gi⟩ := g
          have htnv : t ∉ s1.visited := by
            intro htv
            rcases gn t htv with h' | ⟨h', _⟩
            · exact h2 h'
            · exact h' (List.mem_cons_self t s.temp)
          refine ⟨⟨?_, ⟨l ++ [t], ?_⟩, ?_, ?_, ?_⟩, List.mem_cons_self t s1.visited⟩
          · show (s1.temp.erase t) = s.temp
            rw [gt, List.erase_cons_head]
          · show s1.result ++ [t] = s.result ++ (l ++ [t])
            rw [hl]; exact (List.append_assoc _ _ _)
          · intro x hx
            exact List.mem_cons_of_mem t (gv x hx)
          · intro x hx
            rcases List.mem_cons.1 hx with rfl | hx'
            · exact Or.inr ⟨h1, ht⟩
            · rcases gn x hx' with h' | ⟨h', hxt⟩
              · exact Or.inl h'
              · exact Or.inr ⟨fun hc => h' (List.mem_cons_of_mem t hc), hxt⟩
          · intro hs
            obtain ⟨hiff1, hnd1, hord1⟩ := gi hs
            have htnr : t ∉ s1.result := fun hmem' => htnv ((hiff1 t).mpr hmem')
            refine ⟨?_, ?_, ?_⟩
            · intro x
              show x ∈ t :: s1.visited ↔ x ∈ s1.result ++ [t]
              rw [List.mem_cons, List.mem_append, List.mem_singleton, hiff1 x,
                or_comm]
            · show (s1.result ++ [t]).Nodup
              refine List.Nodup.append hnd1 (List.nodup_singleton t) ?_
              intro x hx1 hx2
              rw [List.mem_singleton] at hx2
              subst hx2
              exact htnr hx1
            · intro a ha d hd
              show d ∈ s1.result ++ [t] ∧ _
              rcases List.mem_append.1 ha with ha1 | ha2
              · obtain ⟨hdmem, hlt⟩ := hord1 a ha1 d hd
                refine ⟨List.mem_append_left _ hdmem, ?_⟩
                rwa [List.indexOf_append_of_mem hdmem,
                  List.indexOf_append_of_mem ha1]
              · rw [List.mem_singleton] at ha2
                subst ha2
                have hdv := hmem d hd
                have hdres := (hiff1 d).mp hdv
                refine ⟨List.mem_append_left _ hdres, ?_⟩
                rw [List.indexOf_append_of_mem hdres,
                  List.indexOf_append_of_not_mem htnr]
                have hlen := List.indexOf_lt_length.mpr hdres
                simp only [List.indexOf_cons_self]
                omega

/-- Every successful pass of the top-level loop is a good step that leaves
all processed tables visited. -/
theorem sortLoop_good {deps : String → List String} {tables : List String}
    (hdeps : ∀ u, ∀ d ∈ deps u, d ∈ tables) (fuel : Nat) :
    ∀ ts s s', (∀ t ∈ ts, t ∈ tables) → sortLoop deps fuel ts s = .ok s' →
      GoodStep deps tables s s' ∧ ∀ t ∈ ts, t ∈ s'.visited := by
  intro ts
  induction ts with
  | nil =>
    intro s s' _ h
    simp only [sortLoop, Except.ok.injEq] at h
    subst h
    exact ⟨GoodStep.refl, by simp⟩
  | cons t ts ih =>
    intro s s' hts h
    simp only [sortLoop] at h
    by_cases h1 : t ∈ s.visited
    · rw [if_pos h1] at h
      obtain ⟨g, hmem⟩ := ih s s' (fun x hx => hts x (by simp [hx])) h
      refine ⟨g, ?_⟩
      intro x hx
      rcases List.mem_cons.1 hx with rfl | hx'
      · exact g.2.2.1 x h1
      · exact hmem x hx'
    · rw [if_neg h1] at h
      cases hv : visitNode deps fuel t s with
      | error e => rw [hv] at h; exact absurd h (by simp)
      | ok s1 =>
        rw [hv] at h
        obtain ⟨g1, ht1⟩ := visitNode_good hdeps fuel t s s1 (hts t (by simp)) hv
        obtain ⟨g2, hmem⟩ := ih s1 s' (fun x hx => hts x (by simp [hx])) h
        refine ⟨g1.trans g2, ?_⟩
        intro x hx
        rcases List.mem_cons.1 hx with rfl | hx'
        · exact g2.2.2.1 x ht1
        · exact hmem x hx'

/-- Everything a successful `sortTablesByDependencies` run guarantees: the
output has no duplicates, holds exactly the input tables, and places every
retained dependency strictly before its dependent. -/
theorem sortedFacts {fks : String → List ForeignKeyInfo}
    {tables result : List String}
    (h : sortTablesByDependencies fks tables = .ok result) :
    result.Nodup ∧ (∀ x, x ∈ result ↔ x ∈ tables) ∧
      (∀ a ∈ result, ∀ d ∈ buildDeps fks tables a,
        d ∈ result ∧ result.indexOf d < result.indexOf a) := by
  unfold sortTablesByDependencies at h
  cases hloop : sortLoop (buildDeps fks tables) (tables.length + 1) tables
      ⟨[], [], []⟩ with
  | error e =>
    rw [hloop] at h
    cases e <;> exact absurd h (by simp)
  | ok sFin =>
    rw [hloop] at h
    simp only [Except.ok.injEq] at h
    subst h
    obtain ⟨g, hmem⟩ := sortLoop_good (buildDeps_subset fks tables) _ tables
      ⟨[], [], []⟩ sFin (fun _ hx => hx) hloop
    obtain ⟨_, _, _, gn, gi⟩ := g
    have hinv : SortInv (buildDeps fks tables) sFin := by
      refine gi ⟨?_, ?_, ?_⟩
      · intro x; constructor <;> intro hx <;> exact absurd hx (by simp)
      · exact List.nodup_nil
      · intro a ha; exact absurd ha (by simp)
    obtain ⟨hiff, hnd, hord⟩ := hinv
    refine ⟨hnd, ?_, hord⟩
    intro x
    constructor
    · intro hx
      rcases gn x ((hiff x).mpr hx) with h' | ⟨_, h'⟩
      · exact absurd h' (by simp)
      · exact h'
    · intro hx
      exact (hiff x).mp (hmem x hx)

/-! ## Fuel sufficiency: the `fuelOut` branch is unreachable -/

theorem visitDeps_fuel_of {deps : String → List String} {tables : List String}
    {fuel : Nat} (hdeps : ∀ u, ∀ d ∈ deps u, d ∈ tables)
    (hN : ∀ t s, t ∈ tables → s.temp.Nodup → (∀ x ∈ s.temp, x ∈ tables) →
      tables.length + 1 ≤ fuel + s.temp.length →
      visitNode deps fuel t s ≠ .error .fuelOut) :
    ∀ ds s, (∀ d ∈ ds, d ∈ tables) → s.temp.Nodup →
      (∀ x ∈ s.temp, x ∈ tables) → tables.length + 1 ≤ fuel + s.temp.length →
      visitDeps (visitNode deps fuel) ds s ≠ .error .fuelOut := by
  intro ds
  induction ds with
  | nil => intro s _ _ _ _; simp [visitDeps]
  | cons d ds ih =>
    intro s hds hnd hsub hf
    simp only [visitDeps]
    cases hv : visitNode deps fuel d s with
    | error e =>
      cases e with
      | fuelOut => exact absurd hv (hN d s (hds d (by simp)) hnd hsub hf)
      | cycle c => simp
    | ok s1 =>
      have htemp : s1.temp = s.temp :=
        (visitNode_good hdeps fuel d s s1 (hds d (by simp)) hv).1.1
      have hnd1 : s1.temp.Nodup := by rw [htemp]; exact hnd
      have hsub1 : ∀ x ∈ s1.temp, x ∈ tables := by
        rw [htemp]; exact hsub
      have hf1 : tables.length + 1 ≤ fuel + s1.temp.length := by
        rw [htemp]; exact hf
      exact ih s1 (fun x hx => hds x (by simp [hx])) hnd1 hsub1 hf1

theorem visitNode_fuel {deps : String → List String} {tables : List String}
    (hdeps : ∀ u, ∀ d ∈ deps u, d ∈ tables) :
    ∀ fuel t s, t ∈ tables → s.temp.Nodup → (∀ x ∈ s.temp, x ∈ tables) →
      tables.length + 1 ≤ fuel + s.temp.length →
      visitNode deps fuel t s ≠ .error .fuelOut := by
  intro fuel
  induction fuel with
  | zero =>
    intro t s _ hnd hsub hf
    exfalso
    have := nodup_subset_length_le hnd hsub
    omega
  | succ fuel ih =>
    intro t s ht hnd hsub hf
    simp only [visitNode]
    by_cases h1 : t ∈ s.temp
    · rw [if_pos h1]; simp
    · rw [if_neg h1]
      by_cases h2 : t ∈ s.visited
      · rw [if_pos h2]; simp
      · rw [if_neg h2]
        cases hvd : visitDeps (visitNode deps fuel) (deps t)
            { s with temp := t :: s.temp } with
        | error e =>
          cases e with
          | cycle c => simp
          | fuelOut =>
            exfalso
            refine visitDeps_fuel_of hdeps ih (deps t) _ (hdeps t) ?_ ?_ ?_ hvd
            · exact List.nodup_cons.mpr ⟨h1, hnd⟩
            · intro x hx
              rcases List.mem_cons.1 hx with rfl | hx'
              · exact ht
              · exact hsub x hx'
            · show tables.length + 1 ≤ fuel + (t :: s.temp).length
              simp only [List.length_cons]
              omega
        | ok s1 => simp

theorem sortLoop_fuel {deps : String → List String} {tables : List String}
    (hdeps : ∀ u, ∀ d ∈ deps u, d ∈ tables) :
    ∀ ts s, (∀ t ∈ ts, t ∈ tables) → s.temp = [] →
      sortLoop deps (tables.length + 1) ts s ≠ .error .fuelOut := by
  intro ts
  induction ts with
  | nil => intro s _ _; simp [sortLoop]
  | cons t ts ih =>
    intro s hts htemp
    simp only [sortLoop]
    by_cases h1 : t ∈ s.visited
    · rw [if_pos h1]; exact ih s (fun x hx => hts x (by simp [hx])) htemp
    · rw [if_neg h1]
      cases hv : visitNode deps (tables.length + 1) t s with
      | error e =>
        cases e with
        | cycle c => simp
        | fuelOut =>
          exfalso
          refine visitNode_fuel hdeps _ t s (hts t (by simp)) ?_ ?_ ?_ hv
          · rw [htemp]; exact List.nodup_nil
          · intro x hx; rw [htemp] at hx; exact absurd hx (by simp)
          · rw [htemp]; simp
      | ok s1 =>
        have htemp1 : s1.temp = s.temp :=
          (visitNode_good hdeps _ t s s1 (hts t (by simp)) hv).1.1
        exact ih s1 (fun x hx => hts x (by simp [hx])) (htemp1.trans htemp)

/-! ## Soundness of cycle detection: a reported table lies on a cycle -/

/-- A chain of dependency links with a repeated element yields a cycle in the
dependency relation. -/
theorem chain_transGen {R : String → String → Prop} :
    ∀ (l : List String) (x y : String), List.Chain' R (x :: l) → y ∈ l →
      Relation.TransGen (fun a b => R b a) y x := by
  intro l
  induction l with
  | nil => intro x y _ hy; exact absurd hy (by simp)
  | cons z l ih =>
    intro x y hch hy
    rw [List.chain'_cons] at hch
    rcases List.mem_cons.1 hy with rfl | hy'
    · exact Relation.TransGen.single hch.1
    · exact Relation.TransGen.tail (ih z y hch.2 hy') hch.1

theorem visitDeps_cycle_of {deps : String → List String} {tables : List String}
    {fuel : Nat} (hdeps : ∀ u, ∀ d ∈ deps u, d ∈ tables)
    (hN : ∀ t s c, t ∈ tables →
      List.Chain' (fun a b => a ∈ deps b) (t :: s.temp) →
      visitNode deps fuel t s = .error (.cycle c) →
      Relation.TransGen (fun a b => b ∈ deps a) c c) :
    ∀ ds s c, (∀ d ∈ ds, d ∈ tables) →
      (∀ d ∈ ds, List.Chain' (fun a b => a ∈ deps b) (d :: s.temp)) →
      visitDeps (visitNode deps fuel) ds s = .error (.cycle c) →
      Relation.TransGen (fun a b => b ∈ deps a) c c := by
  intro ds
  induction ds with
  | nil => intro s c _ _ h; simp [visitDeps] at h
  | cons d ds ih =>
    intro s c hds hch h
    simp only [visitDeps] at h
    cases hv : visitNode deps fuel d s with
    | error e =>
      rw [hv] at h
      simp only [Except.error.injEq] at h
      subst h
      exact hN d s c (hds d (by simp)) (hch d (by simp)) hv
    | ok s1 =>
      rw [hv] at h
      have htemp : s1.temp = s.temp :=
        (visitNode_good hdeps fuel d s s1 (hds d (by simp)) hv).1.1
      refine ih s1 c (fun x hx => hds x (by simp [hx])) ?_ h
      intro x hx
      rw [htemp]
      exact hch x (by simp [hx])

theorem visitNode_cycle {deps : String → List String} {tables : List String}
    (hdeps : ∀ u, ∀ d ∈ deps u, d ∈ tables) :
    ∀ fuel t s c, t ∈ tables →
      List.Chain' (fun a b => a ∈ deps b) (t :: s.temp) →
      visitNode deps fuel t s = .error (.cycle c) →
      Relation.TransGen (fun a b => b ∈ deps a) c c := by
  intro fuel
  induction fuel with
  | zero => intro t s c _ _ h; simp [visitNode] at h
  | succ fuel ih =>
    intro t s c ht hch h
    simp only [visitNode] at h
    by_cases h1 : t ∈ s.temp
    · rw [if_pos h1] at h
      simp only [Except.error.injEq, SortErr.cycle.injEq] at h
      subst h
      exact chain_transGen s.temp t t hch h1
    · rw [if_neg h1] at h
      by_cases h2 : t ∈ s.visited
      · rw [if_pos h2] at h; exact absurd h (by simp)
      · rw [if_neg h2] at h
        cases hvd : visitDeps (visitNode deps fuel) (deps t)
            { s with temp := t :: s.temp } with
        | error e =>
          rw [hvd] at h
          simp only [Except.error.injEq] at h
          subst h
          refine visitDeps_cycle_of hdeps ih (deps t) _ c (hdeps t) ?_ hvd
          intro d hd
          show List.Chain' _ (d :: t :: s.temp)
          rw [List.chain'_cons]
          exact ⟨hd, hch⟩
        | ok s1 => rw [hvd] at h; exact absurd h (by simp)

theorem sortLoop_cycle {deps : String → List String} {tables : List String}
    (hdeps : ∀ u, ∀ d ∈ deps u, d ∈ tables) (fuel : Nat) :
    ∀ ts s c, (∀ t ∈ ts, t ∈ tables) → s.temp = [] →
      sortLoop deps fuel ts s = .error (.cycle c) →
      Relation.TransGen (fun a b => b ∈ deps a) c c := by
  intro ts
  induction ts with
  | nil => intro s c _ _ h; simp [sortLoop] at h
  | cons t ts ih =>
    intro s c hts htemp h
    simp only [sortLoop] at h
    by_cases h1 : t ∈ s.visited
    · rw [if_pos h1] at h
      exact ih s c (fun x hx => hts x (by simp [hx])) htemp h
    · rw [if_neg h1] at h
      cases hv : visitNode deps fuel t s with
      | error e =>
        rw [hv] at h
        simp only [Except.error.injEq] at h
        subst h
        refine visitNode_cycle hdeps fuel t s c (hts t (by simp)) ?_ hv
        rw [htemp]
        exact List.chain'_singleton t
      | ok s1 =>
        rw [hv] at h
        have htemp1 : s1.temp = s.temp :=
          (visitNode_good hdeps fuel t s s1 (hts t (by simp)) hv).1.1
        exact ih s1 c (fun x hx => hts x (by simp [hx])) (htemp1.trans htemp) h

/-! ## Cycles versus successful sorts -/

/-- The target of any retained-dependency path is an input table. -/
theorem transGen_target_mem {fks : String → List ForeignKeyInfo}
    {tables : List String} {a b : String}
    (h : Relation.TransGen (DepEdge fks tables) a b) : b ∈ tables := by
  induction h with
  | single h' => exact buildDeps_subset fks tables _ _ h'
  | tail _ h' _ => exact buildDeps_subset fks tables _ _ h'

/-- In a successful sort, indices strictly decrease along any retained
dependency path starting from an input table. -/
theorem transGen_indexOf_lt {fks : String → List ForeignKeyInfo}
    {tables result : List String}
    (hsort : sortTablesByDependencies fks tables = .ok result) {a b : String}
    (h : Relation.TransGen (DepEdge fks tables) a b) (ha : a ∈ tables) :
    result.indexOf b < result.indexOf a := by
  obtain ⟨_, hiff, hord⟩ := sortedFacts hsort
  induction h with
  | @single b h' => exact (hord a ((hiff a).mpr ha) b h').2
  | @tail b c h1 h2 ih =>
    have hb : b ∈ tables := transGen_target_mem h1
    have h3 := (hord b ((hiff b).mpr hb) c h2).2
    have h4 := ih
    omega

/-- On a cyclic retained dependency graph the sort reports a circular
dependency naming a table that lies on a cycle. -/
theorem sort_cycle_error {fks : String → List ForeignKeyInfo}
    {tables : List String}
    (h : ∃ t, Relation.TransGen (DepEdge fks tables) t t) :
    ∃ c, Relation.TransGen (DepEdge fks tables) c c ∧
      sortTablesByDependencies fks tables =
        .error ("circular dependency detected involving table " ++ c) := by
  obtain ⟨t, ht⟩ := h
  cases hloop : sortLoop (buildDeps fks tables) (tables.length + 1) tables
      ⟨[], [], []⟩ with
  | ok sFin =>
    exfalso
    have hs : sortTablesByDependencies fks tables = .ok sFin.result := by
      unfold sortTablesByDependencies
      rw [hloop]
    have := transGen_indexOf_lt hs ht (transGen_target_mem ht)
    omega
  | error e =>
    cases e with
    | fuelOut =>
      exact absurd hloop (sortLoop_fuel (buildDeps_subset fks tables) tables
        ⟨[], [], []⟩ (fun _ hx => hx) rfl)
    | cycle c =>
      have hc := sortLoop_cycle (buildDeps_subset fks tables) _ tables
        ⟨[], [], []⟩ c (fun _ hx => hx) rfl hloop
      refine ⟨c, hc, ?_⟩
      unfold sortTablesByDependencies
      rw [hloop]

/-! ## Stability on dependency-free inputs -/

/-- When every table to process has an empty dependency list, the top-level
loop appends the tables to the result in input order. -/
theorem sortLoop_no_deps {deps : String → List String} (fuel : Nat) :
    ∀ ts s, (∀ t ∈ ts, deps t = []) → ts.Nodup →
      (∀ t ∈ ts, t ∉ s.visited) → s.temp = [] →
      sortLoop deps (fuel + 1) ts s =
        .ok ⟨s.result ++ ts, ts.reverse ++ s.visited, []⟩ := by
  intro ts
  induction ts with
  | nil =>
    intro s _ _ _ htemp
    cases s with
    | mk r v tp =>
      simp only [sortLoop, List.append_nil, List.reverse_nil, List.nil_append]
      simp only at htemp
      rw [htemp]
  | cons t ts ih =>
    intro s hdeps hnd hvis htemp
    have htv : t ∉ s.visited := hvis t (by simp)
    simp only [sortLoop, if_neg htv]
    have hstep : visitNode deps (fuel + 1) t s =
        .ok ⟨s.result ++ [t], t :: s.visited, []⟩ := by
      have h1 : t ∉ s.temp := by rw [htemp]; simp
      simp only [visitNode, if_neg h1, if_neg htv, hdeps t (by simp)]
      simp only [visitDeps]
      rw [htemp]
      simp [List.erase_cons_head]
    rw [hstep]
    have hrec := ih ⟨s.result ++ [t], t :: s.visited, []⟩
      (fun x hx => hdeps x (by simp [hx]))
      (List.Nodup.of_cons hnd)
      (fun x hx => by
        simp only [List.mem_cons]
        push_neg
        constructor
        · intro hxe
          subst hxe
          exact absurd hx (List.nodup_cons.mp hnd).1
        · exact hvis x (by simp [hx]))
      rfl
    show sortLoop deps (fuel + 1) ts
        ⟨s.result ++ [t], t :: s.visited, []⟩ = _
    rw [hrec]
    simp [List.append_assoc]

/-! ## Claims about the dependency sorter -/

/-- C1: for every acyclic retained dependency graph,
`sortTablesByDependencies` succeeds, and in its output every table appears
after all of its retained (non-self, in-list) dependencies: for every
retained edge (`a` depends on `b`), `index(b) < index(a)`. -/
theorem C1_acyclic_sort_succeeds_ordered (fks : String → List ForeignKeyInfo)
    (tables : List String)
    (hacyc : ∀ t, ¬ Relation.TransGen (DepEdge fks tables) t t) :
    ∃ result, sortTablesByDependencies fks tables = .ok result ∧
      ∀ a ∈ tables, ∀ b ∈ buildDeps fks tables a,
        result.indexOf b < result.indexOf a := by
  cases hloop : sortLoop (buildDeps fks tables) (tables.length + 1) tables
      ⟨[], [], []⟩ with
  | ok sFin =>
    have hs : sortTablesByDependencies fks tables = .ok sFin.result := by
      unfold sortTablesByDependencies
      rw [hloop]
    obtain ⟨_, hiff, hord⟩ := sortedFacts hs
    exact ⟨sFin.result, hs,
      fun a ha b hb => (hord a ((hiff a).mpr ha) b hb).2⟩
  | error e =>
    cases e with
    | fuelOut =>
      exact absurd hloop (sortLoop_fuel (buildDeps_subset fks tables) tables
        ⟨[], [], []⟩ (fun _ hx => hx) rfl)
    | cycle c =>
      exact absurd (sortLoop_cycle (buildDeps_subset fks tables) _ tables
        ⟨[], [], []⟩ c (fun _ hx => hx) rfl hloop) (hacyc c)

theorem C1_witness :
    ∃ result,
      sortTablesByDependencies (fun _ => []) ["users", "orders"] = .ok result ∧
      ∀ a ∈ ["users", "orders"],
        ∀ b ∈ buildDeps (fun _ => []) ["users", "orders"] a,
          result.indexOf b < result.indexOf a := by
  apply C1_acyclic_sort_succeeds_ordered
  have hgen : ∀ a b : String,
      Relation.TransGen (DepEdge (fun _ => []) ["users", "orders"]) a b →
        False := by
    intro a b hab
    induction hab with
    | single h' => simp [DepEdge, buildDeps] at h'
    | tail _ h' _ => simp [DepEdge, buildDeps] at h'
  exact fun t h => hgen t t h

/-- C3: the constructed dependency list of a table contains exactly the
referenced tables of its foreign keys that are not the table itself and occur
in the input table list — self-referencing foreign keys and references to
tables outside the migrated set are excluded. -/
theorem C3_buildDeps_iff (fks : String → List ForeignKeyInfo)
    (tables : List String) (t d : String) :
    d ∈ buildDeps fks tables t ↔
      d ≠ t ∧ d ∈ tables ∧ ∃ fk ∈ fks t, fk.ReferencedTable = d := by
  simp only [buildDeps, List.mem_filterMap]
  constructor
  · rintro ⟨fk, hfk, hout⟩
    split at hout
    · simp at hout
    · next hne =>
      split at hout
      · next hmem =>
        cases hout
        exact ⟨hne, hmem, fk, hfk, rfl⟩
      · simp at hout
  · rintro ⟨hne, hmem, fk, hfk, rfl⟩
    refine ⟨fk, hfk, ?_⟩
    rw [if_neg hne, if_pos hmem]

/-- The dependency graph used by the C4 counterexample: table `A` references
table `C`; tables `B` and `C` have no foreign keys. -/
def fksC4 : String → List ForeignKeyInfo := fun t =>
  if t = "A" then [⟨"A", "x", "C", "id"⟩] else []

/-- Counterexample to C4 as stated: with input `["A", "B", "C"]` and the single
foreign key `A → C`, tables `B` and `C` both have no retained dependencies at
any point, `B` precedes `C` in the input, yet the output `["C", "A", "B"]`
places `C` before `B`: relative input order among simultaneously
dependency-free tables is not preserved. -/
theorem C4_counterexample :
    sortTablesByDependencies fksC4 ["A", "B", "C"] = .ok ["C", "A", "B"] ∧
    buildDeps fksC4 ["A", "B", "C"] "B" = [] ∧
    buildDeps fksC4 ["A", "B", "C"] "C" = [] ∧
    List.indexOf "B" ["A", "B", "C"] < List.indexOf "C" ["A", "B", "C"] ∧
    List.indexOf "C" ["C", "A", "B"] < List.indexOf "B" ["C", "A", "B"] :=
  ⟨rfl, rfl, rfl, by decide, by decide⟩

/-- C4 (amended): `sortTablesByDependencies` is a deterministic pure function
of the table list and foreign-key answers, and when no table has any retained
dependency the output equals the input enumeration order exactly (stable, not
sorted by name); in general, however, a dependency-free table can be emitted
before an earlier dependency-free input table when it is reached first as a
dependency of an earlier table. -/
theorem C4_no_retained_deps_preserves_input_order
    (fks : String → List ForeignKeyInfo) (tables : List String)
    (h1 : tables.Nodup)
    (h2 : ∀ t ∈ tables, buildDeps fks tables t = []) :
    sortTablesByDependencies fks tables = .ok tables := by
  unfold sortTablesByDependencies
  rw [sortLoop_no_deps tables.length tables ⟨[], [], []⟩ h2 h1
    (fun t _ => List.not_mem_nil t) rfl]
  simp

theorem C4_witness :
    sortTablesByDependencies (fun _ => []) ["users", "orders"] =
      .ok ["users", "orders"] :=
  C4_no_retained_deps_preserves_input_order (fun _ => []) ["users", "orders"]
    (by decide) (fun t _ => by simp [buildDeps])

/-- C9: whenever `sortTablesByDependencies` succeeds on a duplicate-free
input, its output is a permutation of the input table list — every input
table appears exactly once and nothing else appears, even when foreign keys
reference tables outside the input set. -/
theorem C9_sort_output_perm {fks : String → List ForeignKeyInfo}
    {tables result : List String}
    (h : sortTablesByDependencies fks tables = .ok result)
    (hnd : tables.Nodup) : result.Perm tables := by
  obtain ⟨hndr, hiff, _⟩ := sortedFacts h
  exact (hndr.subperm fun x hx => (hiff x).mp hx).antisymm
    (hnd.subperm fun x hx => (hiff x).mpr hx)

/-- The dependency graph used by the C9 witness: `orders` references `users`,
and `users` also references a table `ext` outside the migrated set. -/
def fksC9 : String → List ForeignKeyInfo := fun t =>
  if t = "orders" then [⟨"orders", "user_id", "users", "id"⟩]
  else if t = "users" then [⟨"users", "ext_id", "ext", "id"⟩]
  else []

theorem C9_witness : List.Perm ["users", "orders"] ["orders", "users"] :=
  @C9_sort_output_perm fksC9 ["orders", "users"] ["users", "orders"]
    rfl (by decide)

/-- C5: the value sanitization of the Batched Data Mover replaces every
zero-date value (textual `0000-00-00` / `0000-00-00 00:00:00`, the byte form
of those strings, or a zero-valued/zero-year date value) by the fixed epoch
placeholder `"1970-01-01"` in the `AspNetUsers.Birthday` column and by null in
every other table/column, and passes every non-zero value through
unchanged. -/
theorem C5_sanitize_characterization (tableName colName : String) (v : Value) :
    sanitizeValue tableName colName v =
      if isZeroDateValue v then
        if tableName = "AspNetUsers" ∧ colName = "Birthday" then
          .str "1970-01-01"
        else .null
      else v := by
  cases v <;>
    simp only [sanitizeValue, isZeroDateValue, decide_eq_true_eq, Bool.or_eq_true,
      if_true, if_false] <;>
    split <;>
    simp_all

/-! ## The batched data mover and the run orchestrator

Database answers are supplied by an `Env` record (the pure results of the
source/destination queries the code issues); every destination-visible effect
and every `Logger.Log` call is collected, in program order, in a trace of
`Op`s.  Log messages reproduce the Go format strings except that the
timestamp prefix, the `%v`-rendered table lists and the floating-point
percentage of the progress line are omitted. -/

/-- One observable operation of a migration run. -/
inductive Op where
  | logLine (msg : String)
  | disableFK
  | enableFK
  | createTable (stmt : String)
  | prepareInsert (query : String)
  | pageRead (tableName : String) (limit offset : Int)
  | rowInsert (tableName : String) (row : List Value)
deriving DecidableEq, Repr

/-- The database answers a run observes: the (already skip-filtered) table
list, per-table foreign keys, the `SHOW CREATE TABLE` answer, the destination
answer to the create statement, the column list, the `COUNT(*)` answer, the
rows answered by `SELECT ... LIMIT limit OFFSET offset`, the destination
answer to each row insert, and the configured batch size (a Go `int`,
modelled as `Int`). -/
structure Env where
  tables : List String
  fks : String → List ForeignKeyInfo
  schema : String → Except String String
  createRes : String → Except String Unit
  columns : String → List String
  rowCount : String → Nat
  page : String → Int → Int → Except String (List (List Value))
  insertRes : String → List Value → Except String Unit
  batchSize : Int

/-- The `for rows.Next()` body of `MigrateTableData` (lines 397–453) over one
fetched page: sanitize each row and execute the prepared insert, aborting on
the first failed insert. -/
def insertRows (env : Env) (tableName : String) (cols : List String) :
    List (List Value) → Except String Unit × List Op
  | [] => (.ok (), [])
  | row :: rest =>
    let sRow := sanitizeRow tableName cols row
    match env.insertRes tableName sRow with
    | .error e =>
        (.error ("failed to insert row: " ++ e), [.rowInsert tableName sRow])
    | .ok _ =>
      match insertRows env tableName cols rest with
      | (res, ops) => (res, .rowInsert tableName sRow :: ops)

/-- The `for offset < totalRows` paging loop of `MigrateTableData`
(lines 384–462): read a page at the current offset, insert its rows, log
progress, and advance the offset by `BatchSize` regardless of how many rows
the page returned.  `fuel` bounds the number of iterations; `none` means the
fuel ran out with the loop still running (the Go loop genuinely does not
terminate when `BatchSize ≤ 0` and the table is non-empty). -/
def migrateDataLoop (env : Env) (tableName : String) (cols : List String)
    (totalRows : Nat) :
    Nat → Int → Nat → Option (Except String Unit × List Op × Nat)
  | fuel, offset, migratedRows =>
    if offset < (totalRows : Int) then
      match fuel with
      | 0 => none
      | fuel + 1 =>
        let readOp := Op.pageRead tableName env.batchSize offset
        match env.page tableName env.batchSize offset with
        | .error e =>
            some (.error ("failed to select data from table " ++ tableName ++
              ": " ++ e), [readOp], migratedRows)
        | .ok rows =>
          match insertRows env tableName cols rows with
          | (.error e, ops) => some (.error e, readOp :: ops, migratedRows)
          | (.ok _, ops) =>
            let m := migratedRows + rows.length
            let progressOp := Op.logLine ("Table " ++ tableName ++ ": " ++
              toString m ++ "/" ++ toString totalRows ++ " rows migrated")
            match migrateDataLoop env tableName cols totalRows fuel
                (offset + env.batchSize) m with
            | none => none
            | some (res, ops', m') =>
                some (res, readOp :: (ops ++ progressOp :: ops'), m')
    else some (.ok (), [], migratedRows)

/-- `MigrateTableData` (lines 347–466): fetch columns and the total row
count, short-circuit on an empty table, otherwise prepare the insert
statement once and run the paging loop. -/
def MigrateTableData (env : Env) (fuel : Nat) (tableName : String) :
    Option (Except String Unit × List Op) :=
  let startOp := Op.logLine ("Starting data migration for table: " ++
    tableName)
  let cols := env.columns tableName
  let columnNames := String.intercalate "`, `" cols
  let placeholders :=
    (String.join (List.replicate cols.length "?,")).dropRight 1
  let totalRows := env.rowCount tableName
  let countOp := Op.logLine ("Table " ++ tableName ++ " has " ++
    toString totalRows ++ " rows to migrate")
  if totalRows = 0 then
    some (.ok (), [startOp, countOp,
      Op.logLine ("Table " ++ tableName ++ " is empty, skipping data migration")])
  else
    let insertQuery := "INSERT INTO `" ++ tableName ++ "` (`" ++
      columnNames ++ "`) VALUES (" ++ placeholders ++ ")"
    match migrateDataLoop env tableName cols totalRows fuel 0 0 with
    | none => none
    | some (.error e, ops, _) =>
        some (.error e, startOp :: countOp :: Op.prepareInsert insertQuery ::
          ops)
    | some (.ok _, ops, m) =>
        some (.ok (), startOp :: countOp :: Op.prepareInsert insertQuery ::
          (ops ++ [Op.logLine ("Completed data migration for table: " ++
            tableName ++ " (" ++ toString m ++ " rows)")]))

/-- `MigrateTable` (lines 469–490): fetch the schema, create the table on the
destination, then migrate the data, each failure wrapped with the table
name. -/
def MigrateTable (env : Env) (fuel : Nat) (tableName : String) :
    Option (Except String Unit × List Op) :=
  let startOp := Op.logLine ("Starting migration for table: " ++ tableName)
  match env.schema tableName with
  | .error e =>
      some (.error ("failed to get schema for table " ++ tableName ++ ": " ++
        e), [startOp])
  | .ok createStmt =>
    match env.createRes createStmt with
    | .error e =>
        some (.error ("failed to create table " ++ tableName ++ ": " ++
          ("failed to create table: " ++ e)),
          [startOp, Op.createTable createStmt])
    | .ok _ =>
      let createdOps := [startOp, Op.createTable createStmt,
        Op.logLine ("Created table schema for: " ++ tableName)]
      match MigrateTableData env fuel tableName with
      | none => none
      | some (.error e, ops) =>
          some (.error ("failed to migrate data for table " ++ tableName ++
            ": " ++ e), createdOps ++ ops)
      | some (.ok _, ops) => some (.ok (), createdOps ++ ops)

/-- The `for i, tableName := range sortedTables` loop of `Migrate`
(lines 521–529): migrate each table in order; on the first failure invoke
`EnableForeignKeyChecks` once — its result is discarded by the Go code — and
return the wrapped error. -/
def migrateTablesLoop (env : Env) (fuel : Nat) (n : Nat) :
    Nat → List String → Option (Except String Unit × List Op)
  | _, [] => some (.ok (), [])
  | i, t :: ts =>
    let progOp := Op.logLine ("Migrating table " ++ toString (i + 1) ++ "/" ++
      toString n ++ ": " ++ t)
    match MigrateTable env fuel t with
    | none => none
    | some (.error e, ops) =>
        some (.error ("migration failed for table " ++ t ++ ": " ++ e),
          progOp :: (ops ++ [Op.enableFK]))
    | some (.ok _, ops) =>
      match migrateTablesLoop env fuel n (i + 1) ts with
      | none => none
      | some (res, ops') => some (res, progOp :: (ops ++ ops'))

/-- The three log lines `Migrate` emits before sorting (lines 494–506). -/
def migratePreSortOps (env : Env) : List Op :=
  [Op.logLine "Starting database migration",
   Op.logLine ("Found " ++ toString env.tables.length ++
     " tables to migrate"),
   Op.logLine "Analyzing table dependencies..."]

/-- Everything `Migrate` emits between a successful sort and the table loop:
the pre-sort log lines, the sorted/disabling log lines, and the
`SET FOREIGN_KEY_CHECKS = 0` statement (lines 512–518). -/
def migrateHeadOps (env : Env) : List Op :=
  migratePreSortOps env ++
    [Op.logLine "Tables sorted by dependencies",
     Op.logLine "Disabling foreign key checks for migration...",
     Op.disableFK]

/-- `Migrate` (lines 493–540): enumerate tables, sort them by dependencies,
disable foreign-key checks on the destination, migrate every table in sorted
order, and re-enable the checks.  `disableRes`/`enableRes` are the
destination's answers to the two `SET FOREIGN_KEY_CHECKS` statements. -/
def Migrate (env : Env) (disableRes enableRes : Except String Unit)
    (fuel : Nat) : Option (Except String Unit × List Op) :=
  match sortTablesByDependencies env.fks env.tables with
  | .error e =>
      some (.error ("failed to sort tables by dependencies: " ++ e),
        migratePreSortOps env)
  | .ok sorted =>
    let hd := migrateHeadOps env
    match disableRes with
    | .error e =>
        some (.error ("failed to disable foreign key checks: " ++ e), hd)
    | .ok _ =>
      match migrateTablesLoop env fuel sorted.length 0 sorted with
      | none => none
      | some (.error e, ops) => some (.error e, hd ++ ops)
      | some (.ok _, ops) =>
        let l6 := Op.logLine "Re-enabling foreign key checks..."
        match enableRes with
        | .error e =>
            some (.error ("failed to enable foreign key checks: " ++ e),
              hd ++ ops ++ [l6, Op.enableFK])
        | .ok _ =>
            some (.ok (), hd ++ ops ++ [l6, Op.enableFK,
              Op.logLine "Database migration completed successfully"])

/-! ## Trace observations -/

/-- The offsets of the page reads in a trace, in order. -/
def pageReadOffsets (ops : List Op) : List Int :=
  ops.filterMap fun op =>
    match op with
    | .pageRead _ _ o => some o
    | _ => none

/-- The rows written to the destination in a trace, in order. -/
def insertedRows (ops : List Op) : List (List Value) :=
  ops.filterMap fun op =>
    match op with
    | .rowInsert _ r => some r
    | _ => none

theorem pageReadOffsets_append (a b : List Op) :
    pageReadOffsets (a ++ b) = pageReadOffsets a ++ pageReadOffsets b :=
  List.filterMap_append a b _

theorem insertedRows_append (a b : List Op) :
    insertedRows (a ++ b) = insertedRows a ++ insertedRows b :=
  List.filterMap_append a b _

/-- When every insert succeeds, `insertRows` succeeds and its trace is one
insert per row, in page order, each row sanitized positionally. -/
theorem insertRows_ok (env : Env) (tableName : String) (cols : List String)
    (hins : ∀ row, env.insertRes tableName row = .ok ()) :
    ∀ rows, insertRows env tableName cols rows =
      (.ok (), rows.map fun r =>
        Op.rowInsert tableName (sanitizeRow tableName cols r)) := by
  intro rows
  induction rows with
  | nil => rfl
  | cons r rs ih =>
    simp only [insertRows, hins, ih, List.map_cons]

/-- The trace of `insertRows` contains only row inserts. -/
theorem insertRows_ops_insert_only (env : Env) (tableName : String)
    (cols : List String) :
    ∀ rows res ops, insertRows env tableName cols rows = (res, ops) →
      ∀ op ∈ ops, ∃ t r, op = Op.rowInsert t r := by
  intro rows
  induction rows with
  | nil =>
    intro res ops h
    simp only [insertRows, Prod.mk.injEq] at h
    rw [← h.2]
    simp
  | cons r rs ih =>
    intro res ops h
    simp only [insertRows] at h
    cases hi : env.insertRes tableName (sanitizeRow tableName cols r) with
    | error e =>
      rw [hi] at h
      simp only [Prod.mk.injEq] at h
      rw [← h.2]
      intro op hop
      simp only [List.mem_singleton] at hop
      exact ⟨_, _, hop⟩
    | ok u =>
      rw [hi] at h
      cases hrec : insertRows env tableName cols rs with
      | mk res' ops' =>
        rw [hrec] at h
        simp only [Prod.mk.injEq] at h
        rw [← h.2]
        intro op hop
        rcases List.mem_cons.1 hop with rfl | hop'
        · exact ⟨_, _, rfl⟩
        · exact ih res' ops' hrec op hop'

theorem pageReadOffsets_cons_read (t : String) (li o : Int) (ops : List Op) :
    pageReadOffsets (Op.pageRead t li o :: ops) = o :: pageReadOffsets ops := by
  simp [pageReadOffsets]

theorem pageReadOffsets_cons_log (m : String) (ops : List Op) :
    pageReadOffsets (Op.logLine m :: ops) = pageReadOffsets ops := by
  simp [pageReadOffsets]

theorem pageReadOffsets_insert_map (t : String) (f : List Value → List Value)
    (rows : List (List Value)) :
    pageReadOffsets (rows.map fun r => Op.rowInsert t (f r)) = [] := by
  induction rows with
  | nil => rfl
  | cons r rs ih => simp [pageReadOffsets]

theorem insertedRows_cons_read (t : String) (li o : Int) (ops : List Op) :
    insertedRows (Op.pageRead t li o :: ops) = insertedRows ops := by
  simp [insertedRows]

theorem insertedRows_cons_log (m : String) (ops : List Op) :
    insertedRows (Op.logLine m :: ops) = insertedRows ops := by
  simp [insertedRows]

theorem insertedRows_insert_map (t : String) (f : List Value → List Value)
    (rows : List (List Value)) :
    insertedRows (rows.map fun r => Op.rowInsert t (f r)) = rows.map f := by
  induction rows with
  | nil => rfl
  | cons r rs ih => simpa [insertedRows] using ih

/-- The page-read offsets the paging loop visits: starting at `o`, stepping
by `b` each iteration, while the offset is below the total row count, for at
most `fuel` iterations. -/
def pageOffsets (totalRows : Nat) (b : Int) : Nat → Int → List Int
  | 0, _ => []
  | fuel + 1, o =>
    if o < (totalRows : Int) then o :: pageOffsets totalRows b fuel (o + b)
    else []

/-- With positive batch size, enough fuel, and an error-free database, the
paging loop succeeds; its page reads are exactly `pageOffsets` (offset 0,
then advancing by `BatchSize` regardless of page contents) and its inserts
are exactly the concatenation of the fetched pages, each row sanitized, in
read order and ordinal column layout. -/
theorem migrateDataLoop_ok_shape (env : Env) (tableName : String)
    (cols : List String) (totalRows : Nat) (pageF : Int → List (List Value))
    (hpage : ∀ o, env.page tableName env.batchSize o = .ok (pageF o))
    (hins : ∀ row, env.insertRes tableName row = .ok ()) :
    ∀ (fuel : Nat) (offset : Int) m,
      (totalRows : Int) ≤ offset + (fuel : Int) * env.batchSize →
      ∃ ops m', migrateDataLoop env tableName cols totalRows fuel offset m =
          some (.ok (), ops, m') ∧
        pageReadOffsets ops = pageOffsets totalRows env.batchSize fuel offset ∧
        insertedRows ops =
          ((pageOffsets totalRows env.batchSize fuel offset).map fun o =>
            (pageF o).map (sanitizeRow tableName cols)).flatten := by
  intro fuel
  induction fuel with
  | zero =>
    intro offset m hf
    have ho : ¬ offset < (totalRows : Int) := by
      simp only [Nat.cast_zero, zero_mul, add_zero] at hf
      omega
    refine ⟨[], m, ?_, ?_, ?_⟩
    · unfold migrateDataLoop
      rw [if_neg ho]
    · simp [pageOffsets, pageReadOffsets]
    · simp [pageOffsets, insertedRows]
  | succ fuel ih =>
    intro offset m hf
    by_cases ho : offset < (totalRows : Int)
    · have hf' : (totalRows : Int) ≤
          (offset + env.batchSize) + fuel * env.batchSize := by
        have hc : ((fuel + 1 : Nat) : Int) * env.batchSize =
            (fuel : Int) * env.batchSize + env.batchSize := by
          push_cast
          ring
        rw [hc] at hf
        omega
      obtain ⟨ops', m', hrec, hread, hins'⟩ :=
        ih (offset + env.batchSize) (m + (pageF offset).length) hf'
      refine ⟨Op.pageRead tableName env.batchSize offset ::
        (((pageF offset).map fun r =>
            Op.rowInsert tableName (sanitizeRow tableName cols r)) ++
          Op.logLine ("Table " ++ tableName ++ ": " ++
            toString (m + (pageF offset).length) ++ "/" ++
            toString totalRows ++ " rows migrated") :: ops'), m', ?_, ?_, ?_⟩
      · unfold migrateDataLoop
        rw [if_pos ho]
        simp only [hpage offset, insertRows_ok env tableName cols hins, hrec,
          List.length_map]
      · rw [pageReadOffsets_cons_read, pageReadOffsets_append,
          pageReadOffsets_insert_map, pageReadOffsets_cons_log, hread]
        simp [pageOffsets, if_pos ho]
      · rw [insertedRows_cons_read, insertedRows_append,
          insertedRows_insert_map, insertedRows_cons_log, hins']
        simp [pageOffsets, if_pos ho]
    · refine ⟨[], m, ?_, ?_, ?_⟩
      · unfold migrateDataLoop
        rw [if_neg ho]
      · simp [pageOffsets, if_neg ho, pageReadOffsets]
      · simp [pageOffsets, if_neg ho, insertedRows]

/-- With positive batch size `bn` and enough fuel, the number of visited page
offsets from offset `o` is exactly `⌈(totalRows - o) / bn⌉`. -/
theorem pageOffsets_length (totalRows bn : Nat) (hb : 1 ≤ bn) :
    ∀ (fuel o : Nat), totalRows ≤ o + fuel * bn →
      (pageOffsets totalRows (bn : Int) fuel (o : Int)).length
        = (totalRows - o + bn - 1) / bn := by
  intro fuel
  induction fuel with
  | zero =>
    intro o hf
    rw [Nat.zero_mul] at hf
    simp only [pageOffsets, List.length_nil]
    have h0 : totalRows - o = 0 := by omega
    rw [h0]
    exact (Nat.div_eq_of_lt (by omega)).symm
  | succ fuel ih =>
    intro o hf
    rw [Nat.succ_mul] at hf
    by_cases ho : o < totalRows
    · simp only [pageOffsets]
      rw [if_pos (by exact_mod_cast ho)]
      simp only [List.length_cons]
      have hcast : ((o : Int) + (bn : Int)) = ((o + bn : Nat) : Int) := by
        push_cast
        ring_nf
      rw [hcast, ih (o + bn) (by omega)]
      have h1 : totalRows - o + bn - 1 = (totalRows - o - 1) + bn := by omega
      rw [h1, Nat.add_div_right _ (by omega)]
      by_cases hr : totalRows ≤ o + bn
      · have h2 : totalRows - (o + bn) = 0 := by omega
        rw [h2]
        rw [Nat.div_eq_of_lt (by omega : 0 + bn - 1 < bn),
          Nat.div_eq_of_lt (by omega : totalRows - o - 1 < bn)]
      · have h5 : totalRows - (o + bn) + bn - 1 =
            (totalRows - o - 1 - bn) + bn := by omega
        rw [h5, Nat.add_div_right _ (by omega)]
        have h6 : totalRows - o - 1 = (totalRows - o - 1 - bn) + bn := by
          omega
        conv_rhs => rw [h6]
        rw [Nat.add_div_right _ (by omega)]
    · simp only [pageOffsets]
      rw [if_neg (by exact_mod_cast ho)]
      simp only [List.length_nil]
      have h0 : totalRows - o = 0 := by omega
      rw [h0]
      exact (Nat.div_eq_of_lt (by omega)).symm

/-- With non-positive batch size, a non-empty table, and an error-free
database, the paging loop runs forever: no amount of fuel completes it. -/
theorem migrateDataLoop_nonpos_none (env : Env) (tableName : String)
    (cols : List String) (totalRows : Nat)
    (hb : env.batchSize ≤ 0) (ht : 1 ≤ totalRows)
    (hpage : ∀ o : Int, ∃ rows, env.page tableName env.batchSize o = .ok rows)
    (hins : ∀ row, env.insertRes tableName row = .ok ()) :
    ∀ (fuel : Nat) (offset : Int) m, offset ≤ 0 →
      migrateDataLoop env tableName cols totalRows fuel offset m = none := by
  have htz : (1 : Int) ≤ (totalRows : Int) := by exact_mod_cast ht
  intro fuel
  induction fuel with
  | zero =>
    intro offset m ho
    unfold migrateDataLoop
    rw [if_pos (by omega)]
  | succ fuel ih =>
    intro offset m ho
    unfold migrateDataLoop
    rw [if_pos (by omega)]
    obtain ⟨rows, hrows⟩ := hpage offset
    simp only [hrows, insertRows_ok env tableName cols hins rows,
      ih (offset + env.batchSize) _ (by omega), List.length_map]

/-- With positive batch size and enough fuel the paging loop completes (with
success or failure), whatever the database answers. -/
theorem migrateDataLoop_pos_some (env : Env) (tableName : String)
    (cols : List String) (totalRows : Nat) :
    ∀ (fuel : Nat) (offset : Int) m,
      (totalRows : Int) ≤ offset + (fuel : Int) * env.batchSize →
      (migrateDataLoop env tableName cols totalRows fuel offset m).isSome := by
  intro fuel
  induction fuel with
  | zero =>
    intro offset m hf
    simp only [Nat.cast_zero, zero_mul, add_zero] at hf
    unfold migrateDataLoop
    rw [if_neg (by omega)]
    simp
  | succ fuel ih =>
    intro offset m hf
    unfold migrateDataLoop
    by_cases ho : offset < (totalRows : Int)
    · rw [if_pos ho]
      have hf' : (totalRows : Int) ≤
          (offset + env.batchSize) + (fuel : Int) * env.batchSize := by
        have hc : ((fuel + 1 : Nat) : Int) * env.batchSize =
            (fuel : Int) * env.batchSize + env.batchSize := by
          push_cast
          ring
        rw [hc] at hf
        omega
      cases hp : env.page tableName env.batchSize offset with
      | error e => simp
      | ok rows =>
        rcases hi : insertRows env tableName cols rows with ⟨res, ops⟩
        cases res with
        | error e => simp [hi]
        | ok u =>
          have hrec := ih (offset + env.batchSize) (m + rows.length) hf'
          cases hloop : migrateDataLoop env tableName cols totalRows fuel
              (offset + env.batchSize) (m + rows.length) with
          | none => rw [hloop] at hrec; simp at hrec
          | some trip =>
            rcases trip with ⟨res2, ops2, m2⟩
            simp [hi, hloop]
    · rw [if_neg ho]
      simp

theorem pageReadOffsets_cons_prepare (q : String) (ops : List Op) :
    pageReadOffsets (Op.prepareInsert q :: ops) = pageReadOffsets ops := by
  simp [pageReadOffsets]

theorem insertedRows_cons_prepare (q : String) (ops : List Op) :
    insertedRows (Op.prepareInsert q :: ops) = insertedRows ops := by
  simp [insertedRows]

/-! ## Claims about the batched data mover -/

/-- C7: on a table whose total row count is 0, `MigrateTableData` performs no
page read, no row insert and prepares no insert statement: it returns success
with a trace of exactly three log lines. -/
theorem C7_empty_table_noop (env : Env) (fuel : Nat) (tableName : String)
    (h : env.rowCount tableName = 0) :
    MigrateTableData env fuel tableName =
      some (.ok (), [
        Op.logLine ("Starting data migration for table: " ++ tableName),
        Op.logLine ("Table " ++ tableName ++ " has " ++ toString (0 : Nat) ++
          " rows to migrate"),
        Op.logLine ("Table " ++ tableName ++
          " is empty, skipping data migration")]) := by
  unfold MigrateTableData
  rw [h]
  rfl

/-- The environment of the C7 witness: a table with zero rows. -/
def envC7 : Env :=
  { tables := ["audit_log"], fks := fun _ => [], schema := fun _ => .ok "",
    createRes := fun _ => .ok (), columns := fun _ => ["id", "note"],
    rowCount := fun _ => 0, page := fun _ _ _ => .ok [],
    insertRes := fun _ _ => .ok (), batchSize := 1000 }

theorem C7_witness :
    MigrateTableData envC7 7 "audit_log" =
      some (.ok (), [
        Op.logLine "Starting data migration for table: audit_log",
        Op.logLine "Table audit_log has 0 rows to migrate",
        Op.logLine "Table audit_log is empty, skipping data migration"]) :=
  C7_empty_table_noop envC7 7 "audit_log" rfl

/-- C10: for a table with at least one row and a database that answers every
page read and row insert without error, the paging loop of
`MigrateTableData` terminates precisely when `BatchSize ≥ 1`: some amount of
fuel completes the call if and only if the batch size is positive (with
`BatchSize ≤ 0` the offset never advances past the total and the Go loop
runs forever). -/
theorem C10_terminates_iff_batch_pos (env : Env) (tableName : String)
    (ht : 1 ≤ env.rowCount tableName)
    (hpage : ∀ o : Int, ∃ rows, env.page tableName env.batchSize o = .ok rows)
    (hins : ∀ row, env.insertRes tableName row = .ok ()) :
    (∃ fuel, (MigrateTableData env fuel tableName).isSome) ↔
      1 ≤ env.batchSize := by
  constructor
  · rintro ⟨fuel, hsome⟩
    by_contra hb
    push_neg at hb
    have hnone := migrateDataLoop_nonpos_none env tableName
      (env.columns tableName) (env.rowCount tableName) (by omega) ht hpage
      hins fuel 0 0 le_rfl
    unfold MigrateTableData at hsome
    rw [if_neg (by omega), hnone] at hsome
    simp at hsome
  · intro hb
    refine ⟨env.rowCount tableName, ?_⟩
    have hsome := migrateDataLoop_pos_some env tableName
      (env.columns tableName) (env.rowCount tableName)
      (env.rowCount tableName) 0 0 (by
        have h1 : (1 : Int) ≤ env.batchSize := hb
        have h2 : (0 : Int) ≤ (env.rowCount tableName : Int) := by positivity
        nlinarith)
    unfold MigrateTableData
    rw [if_neg (by omega)]
    cases hloop : migrateDataLoop env tableName (env.columns tableName)
        (env.rowCount tableName) (env.rowCount tableName) 0 0 with
    | none => rw [hloop] at hsome; simp at hsome
    | some trip =>
      rcases trip with ⟨res, ops, m⟩
      cases res <;> simp

/-- The environment of the C10 witness: one row, batch size 0 (and, for the
positive direction, the same table with batch size 1). -/
def envC10 : Env :=
  { tables := ["t"], fks := fun _ => [], schema := fun _ => .ok "",
    createRes := fun _ => .ok (), columns := fun _ => ["id"],
    rowCount := fun _ => 1, page := fun _ _ _ => .ok [],
    insertRes := fun _ _ => .ok (), batchSize := 0 }

theorem C10_witness :
    (¬ ∃ fuel, (MigrateTableData envC10 fuel "t").isSome) ∧
    (∃ fuel,
      (MigrateTableData { envC10 with batchSize := 1 } fuel "t").isSome) := by
  constructor
  · intro h
    have := (C10_terminates_iff_batch_pos envC10 "t" le_rfl
      (fun o => ⟨[], rfl⟩) (fun row => rfl)).mp h
    exact absurd this (by decide)
  · exact (C10_terminates_iff_batch_pos { envC10 with batchSize := 1 } "t"
      le_rfl (fun o => ⟨[], rfl⟩) (fun row => rfl)).mpr le_rfl

/-- The rows of the C6 concrete scenario: 250 single-column rows. -/
def rows250 : List (List Value) := (List.range 250).map fun i => [Value.intVal i]

/-- The environment of the C6 concrete scenario: a 250-row table read with
batch size 100; a page read answers the rows in the requested offset/limit
window. -/
def env250 : Env :=
  { tables := ["T"], fks := fun _ => [], schema := fun _ => .ok "",
    createRes := fun _ => .ok (), columns := fun _ => ["Id"],
    rowCount := fun _ => 250,
    page := fun _ limit offset =>
      .ok ((rows250.drop offset.toNat).take limit.toNat),
    insertRes := fun _ _ => .ok (), batchSize := 100 }

/-- The page contents `env250` answers for batch size 100. -/
def pageF250 (o : Int) : List (List Value) := (rows250.drop o.toNat).take 100

set_option maxRecDepth 8000 in
/-- C6: in general, for a non-empty table, positive batch size and an
error-free database, `MigrateTableData` issues exactly
`⌈total/batchSize⌉` page reads at offsets advancing by `batchSize` each
iteration regardless of how many rows each page returned, and writes exactly
the fetched pages' rows, sanitized, in read order and ordinal column layout;
concretely, with `total = 250` and `batchSize = 100` it issues 3 page reads
(at offsets 0, 100, 200, returning 100, 100 and 50 rows) and writes exactly
250 rows identical to the rows read. -/
theorem C6_paging :
    (∀ (env : Env) (tableName : String) (bn fuel : Nat)
        (pageF : Int → List (List Value)),
      env.batchSize = (bn : Int) → 1 ≤ bn →
      1 ≤ env.rowCount tableName →
      (∀ o, env.page tableName env.batchSize o = .ok (pageF o)) →
      (∀ row, env.insertRes tableName row = .ok ()) →
      env.rowCount tableName ≤ fuel * bn →
      ∃ ops, MigrateTableData env fuel tableName = some (.ok (), ops) ∧
        pageReadOffsets ops =
          pageOffsets (env.rowCount tableName) env.batchSize fuel 0 ∧
        (pageReadOffsets ops).length =
          (env.rowCount tableName + bn - 1) / bn ∧
        insertedRows ops =
          ((pageOffsets (env.rowCount tableName) env.batchSize fuel 0).map
            fun o => (pageF o).map
              (sanitizeRow tableName (env.columns tableName))).flatten) ∧
    ((MigrateTableData env250 3 "T").map fun p => p.1) = some (.ok ()) ∧
    ((MigrateTableData env250 3 "T").map fun p => pageReadOffsets p.2) =
      some [0, 100, 200] ∧
    ((MigrateTableData env250 3 "T").map fun p => (insertedRows p.2).length) =
      some 250 ∧
    ((MigrateTableData env250 3 "T").map fun p => insertedRows p.2) =
      some (rows250.map (sanitizeRow "T" ["Id"])) ∧
    ((MigrateTableData env250 3 "T").map fun p => insertedRows p.2) =
      some rows250 ∧
    (pageF250 0).length = 100 ∧ (pageF250 100).length = 100 ∧
    (pageF250 200).length = 50 := by
  refine ⟨?_, rfl, rfl, rfl, rfl, rfl, rfl, rfl, rfl⟩
  intro env tableName bn fuel pageF hb hb1 htot hpage hins hfuel
  have hfuel' : (env.rowCount tableName : Int) ≤
      0 + (fuel : Int) * env.batchSize := by
    rw [hb]
    have : (env.rowCount tableName : Int) ≤ ((fuel * bn : Nat) : Int) := by
      exact_mod_cast hfuel
    push_cast at this
    omega
  obtain ⟨ops, m', hrec, hread, hins'⟩ :=
    migrateDataLoop_ok_shape env tableName (env.columns tableName)
      (env.rowCount tableName) pageF hpage hins fuel 0 0 hfuel'
  refine ⟨Op.logLine ("Starting data migration for table: " ++ tableName) ::
    Op.logLine ("Table " ++ tableName ++ " has " ++
      toString (env.rowCount tableName) ++ " rows to migrate") ::
    Op.prepareInsert ("INSERT INTO `" ++ tableName ++ "` (`" ++
      String.intercalate "`, `" (env.columns tableName) ++ "`) VALUES (" ++
      (String.join (List.replicate (env.columns tableName).length
        "?,")).dropRight 1 ++ ")") ::
    (ops ++ [Op.logLine ("Completed data migration for table: " ++
      tableName ++ " (" ++ toString m' ++ " rows)")]), ?_, ?_, ?_, ?_⟩
  · unfold MigrateTableData
    rw [if_neg (by omega), hrec]
  · rw [pageReadOffsets_cons_log, pageReadOffsets_cons_log,
      pageReadOffsets_cons_prepare, pageReadOffsets_append, hread]
    simp [pageReadOffsets]
  · rw [pageReadOffsets_cons_log, pageReadOffsets_cons_log,
      pageReadOffsets_cons_prepare, pageReadOffsets_append, hread]
    have hl := pageOffsets_length (env.rowCount tableName) bn hb1 fuel 0
      (by omega)
    rw [hb]
    simp only [Nat.cast_zero, Nat.sub_zero] at hl
    simp [pageReadOffsets, hl]
  · rw [insertedRows_cons_log, insertedRows_cons_log,
      insertedRows_cons_prepare, insertedRows_append, hins']
    simp [insertedRows]

theorem C6_witness :
    ∃ ops, MigrateTableData env250 3 "T" = some (.ok (), ops) ∧
      pageReadOffsets ops =
        pageOffsets (env250.rowCount "T") env250.batchSize 3 0 ∧
      (pageReadOffsets ops).length = (env250.rowCount "T" + 100 - 1) / 100 ∧
      insertedRows ops =
        ((pageOffsets (env250.rowCount "T") env250.batchSize 3 0).map
          fun o => (pageF250 o).map
            (sanitizeRow "T" (env250.columns "T"))).flatten :=
  C6_paging.1 env250 "T" 100 3 pageF250 rfl (by omega) (by decide)
    (fun o => rfl) (fun row => rfl) (by decide)

/-! ## Constraint-toggle accounting -/

/-- The paging loop never touches the constraint toggle. -/
theorem migrateDataLoop_no_toggle (env : Env) (tableName : String)
    (cols : List String) (totalRows : Nat) :
    ∀ (fuel : Nat) (offset : Int) m res ops m',
      migrateDataLoop env tableName cols totalRows fuel offset m =
        some (res, ops, m') →
      Op.enableFK ∉ ops ∧ Op.disableFK ∉ ops := by
  intro fuel
  induction fuel with
  | zero =>
    intro offset m res ops m' h
    unfold migrateDataLoop at h
    by_cases ho : offset < (totalRows : Int)
    · rw [if_pos ho] at h; exact absurd h (by simp)
    · rw [if_neg ho] at h
      simp only [Option.some.injEq, Prod.mk.injEq] at h
      rw [← h.2.1]
      simp
  | succ fuel ih =>
    intro offset m res ops m' h
    unfold migrateDataLoop at h
    by_cases ho : offset < (totalRows : Int)
    · rw [if_pos ho] at h
      cases hp : env.page tableName env.batchSize offset with
      | error e =>
        simp only [hp, Option.some.injEq, Prod.mk.injEq] at h
        rw [← h.2.1]
        simp
      | ok rows =>
        rcases hi : insertRows env tableName cols rows with ⟨res0, ops0⟩
        have hkinds := insertRows_ops_insert_only env tableName cols rows
          res0 ops0 hi
        have hops0 : Op.enableFK ∉ ops0 ∧ Op.disableFK ∉ ops0 := by
          constructor <;> intro hmem <;>
            obtain ⟨t', r', ht'⟩ := hkinds _ hmem <;> simp at ht'
        cases res0 with
        | error e =>
          simp only [hp, hi, Option.some.injEq, Prod.mk.injEq] at h
          rw [← h.2.1]
          simp only [List.mem_cons]
          constructor <;> rintro (hc | hc) <;>
            first
              | simp at hc
              | exact hops0.1 hc
              | exact hops0.2 hc
        | ok u =>
          cases hrec : migrateDataLoop env tableName cols totalRows fuel
              (offset + env.batchSize) (m + rows.length) with
          | none => simp only [hp, hi, hrec] at h; exact absurd h (by simp)
          | some trip =>
            rcases trip with ⟨res2, ops2, m2⟩
            have hih := ih (offset + env.batchSize) (m + rows.length) res2
              ops2 m2 hrec
            simp only [hp, hi, hrec, Option.some.injEq, Prod.mk.injEq] at h
            rw [← h.2.1]
            simp only [List.mem_cons, List.mem_append]
            constructor <;> rintro (hc | hc | hc | hc) <;>
              first
                | simp at hc
                | exact hops0.1 hc
                | exact hops0.2 hc
                | exact hih.1 hc
                | exact hih.2 hc
    · rw [if_neg ho] at h
      simp only [Option.some.injEq, Prod.mk.injEq] at h
      rw [← h.2.1]
      simp

/-- `MigrateTableData` never touches the constraint toggle. -/
theorem MigrateTableData_no_toggle (env : Env) (fuel : Nat)
    (tableName : String) (res : Except String Unit) (ops : List Op)
    (h : MigrateTableData env fuel tableName = some (res, ops)) :
    Op.enableFK ∉ ops ∧ Op.disableFK ∉ ops := by
  unfold MigrateTableData at h
  by_cases h0 : env.rowCount tableName = 0
  · rw [h0] at h
    simp at h
    obtain ⟨h1, h2⟩ := h
    subst h2
    simp
  · rw [if_neg h0] at h
    cases hloop : migrateDataLoop env tableName (env.columns tableName)
        (env.rowCount tableName) fuel 0 0 with
    | none => rw [hloop] at h; exact absurd h (by simp)
    | some trip =>
      rcases trip with ⟨res0, ops0, m0⟩
      have htog := migrateDataLoop_no_toggle env tableName
        (env.columns tableName) (env.rowCount tableName) fuel 0 0 res0 ops0
        m0 hloop
      cases res0 with
      | error e =>
        rw [hloop] at h
        simp only [Option.some.injEq, Prod.mk.injEq] at h
        rw [← h.2]
        simp only [List.mem_cons]
        constructor <;> rintro (hc | hc | hc | hc) <;>
          first
            | simp at hc
            | exact htog.1 hc
            | exact htog.2 hc
      | ok u =>
        rw [hloop] at h
        simp only [Option.some.injEq, Prod.mk.injEq] at h
        rw [← h.2]
        simp only [List.mem_cons, List.mem_append, List.mem_singleton]
        constructor <;> rintro (hc | hc | hc | hc | hc) <;>
          first
            | simp at hc
            | exact htog.1 hc
            | exact htog.2 hc

/-- `MigrateTable` never touches the constraint toggle. -/
theorem MigrateTable_no_toggle (env : Env) (fuel : Nat) (tableName : String)
    (res : Except String Unit) (ops : List Op)
    (h : MigrateTable env fuel tableName = some (res, ops)) :
    Op.enableFK ∉ ops ∧ Op.disableFK ∉ ops := by
  unfold MigrateTable at h
  cases hs : env.schema tableName with
  | error e =>
    simp only [hs, Option.some.injEq, Prod.mk.injEq] at h
    rw [← h.2]
    simp
  | ok createStmt =>
    cases hc : env.createRes createStmt with
    | error e =>
      simp only [hs, hc, Option.some.injEq, Prod.mk.injEq] at h
      rw [← h.2]
      simp
    | ok u =>
      cases hd : MigrateTableData env fuel tableName with
      | none => simp only [hs, hc, hd] at h; exact absurd h (by simp)
      | some p =>
        rcases p with ⟨res0, ops0⟩
        have htog := MigrateTableData_no_toggle env fuel tableName res0 ops0
          hd
        cases res0 with
        | error e =>
          simp only [hs, hc, hd, Option.some.injEq, Prod.mk.injEq] at h
          rw [← h.2]
          simp only [List.mem_append, List.mem_cons, List.mem_singleton]
          constructor <;> rintro ((hc | hc | hc) | hc) <;>
            first
              | simp at hc
              | exact htog.1 hc
              | exact htog.2 hc
        | ok u' =>
          simp only [hs, hc, hd, Option.some.injEq, Prod.mk.injEq] at h
          rw [← h.2]
          simp only [List.mem_append, List.mem_cons, List.mem_singleton]
          constructor <;> rintro ((hc | hc | hc) | hc) <;>
            first
              | simp at hc
              | exact htog.1 hc
              | exact htog.2 hc

/-- In the table loop, the `EnableForeignKeyChecks` attempt appears exactly
once in the trace when the loop fails, and never when it succeeds. -/
theorem migrateTablesLoop_enable_count (env : Env) (fuel n : Nat) :
    ∀ (i : Nat) (ts : List String) (res : Except String Unit) (ops : List Op),
      migrateTablesLoop env fuel n i ts = some (res, ops) →
      (res = .ok () ∧ ops.count Op.enableFK = 0) ∨
      (∃ e, res = .error e ∧ ops.count Op.enableFK = 1) := by
  intro i ts
  induction ts generalizing i with
  | nil =>
    intro res ops h
    simp only [migrateTablesLoop, Option.some.injEq, Prod.mk.injEq] at h
    exact Or.inl ⟨h.1.symm, by rw [← h.2]; simp⟩
  | cons t ts ih =>
    intro res ops h
    cases hm : MigrateTable env fuel t with
    | none =>
      simp only [migrateTablesLoop, hm] at h
      exact absurd h (by simp)
    | some p =>
      rcases p with ⟨res0, ops0⟩
      have htog := MigrateTable_no_toggle env fuel t res0 ops0 hm
      have hcnt0 : ops0.count Op.enableFK = 0 := List.count_eq_zero.mpr htog.1
      cases res0 with
      | error e =>
        simp only [migrateTablesLoop, hm, Option.some.injEq,
          Prod.mk.injEq] at h
        refine Or.inr ⟨_, h.1.symm, ?_⟩
        rw [← h.2]
        simp [List.count_cons, List.count_append, hcnt0]
      | ok u =>
        cases hrec : migrateTablesLoop env fuel n (i + 1) ts with
        | none =>
          simp only [migrateTablesLoop, hm, hrec] at h
          exact absurd h (by simp)
        | some q =>
          rcases q with ⟨res1, ops1⟩
          simp only [migrateTablesLoop, hm, hrec, Option.some.injEq,
            Prod.mk.injEq] at h
          rcases ih (i + 1) res1 ops1 hrec with ⟨hok, hcnt1⟩ | ⟨e, herr, hcnt1⟩
          · refine Or.inl ⟨by rw [← h.1, hok], ?_⟩
            rw [← h.2]
            simp [List.count_cons, List.count_append, hcnt0, hcnt1]
          · refine Or.inr ⟨e, by rw [← h.1, herr], ?_⟩
            rw [← h.2]
            simp [List.count_cons, List.count_append, hcnt0, hcnt1]

/-- C8 (amended): in every run that gets past a successful
`DisableForeignKeyChecks`, `EnableForeignKeyChecks` is invoked exactly once —
on the success path, and (best-effort) on any mid-loop table-migration
failure path, even when disabling was the only prior successful step; on the
failure path the secondary re-enable outcome is discarded by the code: the
run's result and entire trace (log lines included) are the same whatever
`EnableForeignKeyChecks` returns, so the original failure reason remains
the error that propagates and the secondary error is not logged. -/
theorem C8_enable_once_error_discarded (env : Env) (fuel : Nat) :
    (∀ (enableRes : Except String Unit) (r : Except String Unit)
        (tr : List Op),
      Migrate env (.ok ()) enableRes fuel = some (r, tr) →
      Op.disableFK ∈ tr → tr.count Op.enableFK = 1) ∧
    (∀ (sorted : List String) (e : String) (lops : List Op),
      sortTablesByDependencies env.fks env.tables = .ok sorted →
      migrateTablesLoop env fuel sorted.length 0 sorted =
        some (.error e, lops) →
      ∀ enableRes, Migrate env (.ok ()) enableRes fuel =
        some (.error e, migrateHeadOps env ++ lops)) := by
  constructor
  · intro er r tr hrun hmem
    unfold Migrate at hrun
    cases hsort : sortTablesByDependencies env.fks env.tables with
    | error e =>
      simp only [hsort, Option.some.injEq, Prod.mk.injEq] at hrun
      rw [← hrun.2] at hmem
      exact absurd hmem (by simp [migratePreSortOps])
    | ok sorted =>
      cases hloop : migrateTablesLoop env fuel sorted.length 0 sorted with
      | none =>
        simp only [hsort, hloop] at hrun
        exact absurd hrun (by simp)
      | some p =>
        rcases p with ⟨lres, lops⟩
        rcases migrateTablesLoop_enable_count env fuel sorted.length 0 sorted
            lres lops hloop with ⟨hok, hcnt⟩ | ⟨e, herr, hcnt⟩
        · subst hok
          cases er with
          | error em =>
            simp only [hsort, hloop, Option.some.injEq, Prod.mk.injEq] at hrun
            rw [← hrun.2]
            simp [migrateHeadOps, migratePreSortOps, List.count_append,
              List.count_cons, hcnt]
          | ok u =>
            simp only [hsort, hloop, Option.some.injEq, Prod.mk.injEq] at hrun
            rw [← hrun.2]
            simp [migrateHeadOps, migratePreSortOps, List.count_append,
              List.count_cons, hcnt]
        · subst herr
          simp only [hsort, hloop, Option.some.injEq, Prod.mk.injEq] at hrun
          rw [← hrun.2]
          simp [migrateHeadOps, migratePreSortOps, List.count_append,
            List.count_cons, hcnt]
  · intro sorted e lops hsort hloop er
    unfold Migrate
    simp only [hsort, hloop]

/-- The environment of the C8 scenario: a single table whose schema fetch
fails, so the very first table migration fails right after constraints were
disabled. -/
def envC8 : Env :=
  { tables := ["T"], fks := fun _ => [], schema := fun _ => .error "boom",
    createRes := fun _ => .ok (), columns := fun _ => ["id"],
    rowCount := fun _ => 0, page := fun _ _ _ => .ok [],
    insertRes := fun _ _ => .ok (), batchSize := 100 }

/-- Counterexample to C8 as stated: the claim says the secondary re-enable
error on the failure path is logged; in the code it is discarded outright.
With a failing table migration, the run's result and complete trace are
byte-for-byte identical whether `EnableForeignKeyChecks` fails or succeeds —
so nothing about the enable failure is ever logged — and every log line of
the failing run is one of the seven fixed progress messages, none mentioning
the re-enable failure. -/
theorem C8_counterexample :
    Migrate envC8 (.ok ()) (.error "enable boom") 1 =
      Migrate envC8 (.ok ()) (.ok ()) 1 ∧
    Migrate envC8 (.ok ()) (.error "enable boom") 1 =
      some (.error
        "migration failed for table T: failed to get schema for table T: boom",
        [Op.logLine "Starting database migration",
         Op.logLine "Found 1 tables to migrate",
         Op.logLine "Analyzing table dependencies...",
         Op.logLine "Tables sorted by dependencies",
         Op.logLine "Disabling foreign key checks for migration...",
         Op.disableFK,
         Op.logLine "Migrating table 1/1: T",
         Op.logLine "Starting migration for table: T",
         Op.enableFK]) ∧
    (∀ msg,
      Op.logLine msg ∈
        [Op.logLine "Starting database migration",
         Op.logLine "Found 1 tables to migrate",
         Op.logLine "Analyzing table dependencies...",
         Op.logLine "Tables sorted by dependencies",
         Op.logLine "Disabling foreign key checks for migration...",
         Op.disableFK,
         Op.logLine "Migrating table 1/1: T",
         Op.logLine "Starting migration for table: T",
         Op.enableFK] →
      msg ∈ ["Starting database migration", "Found 1 tables to migrate",
        "Analyzing table dependencies...", "Tables sorted by dependencies",
        "Disabling foreign key checks for migration...",
        "Migrating table 1/1: T", "Starting migration for table: T"]) := by
  refine ⟨rfl, rfl, ?_⟩
  intro msg hm
  simp only [List.mem_cons, List.not_mem_nil, or_false] at hm ⊢
  rcases hm with h | h | h | h | h | h | h | h | h <;> simp_all

theorem C8_witness :
    (∃ r tr, Migrate envC8 (.ok ()) (.error "enable boom") 1 =
        some (r, tr) ∧ tr.count Op.enableFK = 1) ∧
    Migrate envC8 (.ok ()) (.error "enable boom") 1 =
      some (.error
        "migration failed for table T: failed to get schema for table T: boom",
        migrateHeadOps envC8 ++
          [Op.logLine "Migrating table 1/1: T",
           Op.logLine "Starting migration for table: T", Op.enableFK]) := by
  constructor
  · refine ⟨_, _, rfl, ?_⟩
    exact (C8_enable_once_error_discarded envC8 1).1 (.error "enable boom")
      _ _ rfl (by decide)
  · exact (C8_enable_once_error_discarded envC8 1).2 ["T"]
      "migration failed for table T: failed to get schema for table T: boom"
      [Op.logLine "Migrating table 1/1: T",
       Op.logLine "Starting migration for table: T", Op.enableFK]
      rfl rfl (.error "enable boom")

/-- C2: on a retained dependency graph with a cycle,
`sortTablesByDependencies` fails with the circular-dependency error naming a
table that lies on a cycle, and the run aborts before any destination
mutation: whatever the database answers, `Migrate` returns the wrapped sort
error with a trace of log lines only — no table is created, no row is
inserted, and constraints are never disabled or enabled. -/
theorem C2_cycle_fails_before_mutation (fks : String → List ForeignKeyInfo)
    (tables : List String)
    (h : ∃ t, Relation.TransGen (DepEdge fks tables) t t) :
    ∃ c, Relation.TransGen (DepEdge fks tables) c c ∧
      sortTablesByDependencies fks tables =
        .error ("circular dependency detected involving table " ++ c) ∧
      ∀ (env : Env) (disableRes enableRes : Except String Unit) (fuel : Nat),
        env.fks = fks → env.tables = tables →
        ∃ tr, Migrate env disableRes enableRes fuel =
            some (.error ("failed to sort tables by dependencies: " ++
              ("circular dependency detected involving table " ++ c)), tr) ∧
          (∀ op ∈ tr, ∃ msg, op = Op.logLine msg) ∧
          Op.disableFK ∉ tr ∧ Op.enableFK ∉ tr ∧
          (∀ stmt, Op.createTable stmt ∉ tr) ∧
          (∀ t row, Op.rowInsert t row ∉ tr) := by
  obtain ⟨c, hc, hsort⟩ := sort_cycle_error h
  refine ⟨c, hc, hsort, ?_⟩
  intro env d er fuel hf htb
  refine ⟨migratePreSortOps env, ?_, ?_, ?_, ?_, ?_, ?_⟩
  · unfold Migrate
    rw [hf, htb, hsort]
  · intro op hop
    simp only [migratePreSortOps, List.mem_cons, List.not_mem_nil,
      or_false] at hop
    rcases hop with rfl | rfl | rfl <;> exact ⟨_, rfl⟩
  · simp [migratePreSortOps]
  · simp [migratePreSortOps]
  · intro stmt; simp [migratePreSortOps]
  · intro t row; simp [migratePreSortOps]

/-- The dependency graph of the C2 witness: tables `A` and `B` reference each
other (a two-cycle). -/
def fksC2 : String → List ForeignKeyInfo := fun t =>
  if t = "A" then [⟨"A", "b_id", "B", "id"⟩]
  else if t = "B" then [⟨"B", "a_id", "A", "id"⟩]
  else []

theorem C2_witness :
    ∃ c, Relation.TransGen (DepEdge fksC2 ["A", "B"]) c c ∧
      sortTablesByDependencies fksC2 ["A", "B"] =
        .error ("circular dependency detected involving table " ++ c) ∧
      ∀ (env : Env) (disableRes enableRes : Except String Unit) (fuel : Nat),
        env.fks = fksC2 → env.tables = ["A", "B"] →
        ∃ tr, Migrate env disableRes enableRes fuel =
            some (.error ("failed to sort tables by dependencies: " ++
              ("circular dependency detected involving table " ++ c)), tr) ∧
          (∀ op ∈ tr, ∃ msg, op = Op.logLine msg) ∧
          Op.disableFK ∉ tr ∧ Op.enableFK ∉ tr ∧
          (∀ stmt, Op.createTable stmt ∉ tr) ∧
          (∀ t row, Op.rowInsert t row ∉ tr) := by
  have e1 : DepEdge fksC2 ["A", "B"] "A" "B" := by
    show "B" ∈ buildDeps fksC2 ["A", "B"] "A"
    decide
  have e2 : DepEdge fksC2 ["A", "B"] "B" "A" := by
    show "A" ∈ buildDeps fksC2 ["A", "B"] "B"
    decide
  exact C2_cycle_fails_before_mutation fksC2 ["A", "B"]
    ⟨"A", Relation.TransGen.tail (Relation.TransGen.single e1) e2⟩
